import Mathlib

/-!
Verification development for the module `sage/combinat/q_analogues.py`.

The module computes q-analogues of combinatorial numbers: `q_int`,
`q_factorial`, `q_binomial` (with its adaptive algorithm selection between a
naive product formula and cyclotomic-polynomial products), `q_catalan_number`
and the memoized recursive `q_jordan`.

The integer instantiation of the opaque numeric/polynomial value type is
embedded as `ℤ` (and `ℚ` where the source divides with true division).
Univariate integer polynomials, needed for the cyclotomic-polynomial
collaborator, are embedded as little-endian coefficient lists over `ℤ`,
interpreted into Mathlib's `Polynomial ℤ` by `toPoly`.
-/

namespace QAnalog

open Polynomial

/-- Interpretation of a little-endian coefficient list as an integer
polynomial.  This is a proof-side semantic map (Mathlib's `Polynomial` carries
no executable code); all program-side definitions below stay computable. -/
noncomputable def toPoly : List ℤ → Polynomial ℤ
  | [] => 0
  | a :: l => Polynomial.C a + toPoly l * Polynomial.X

/-- Coefficient-wise addition of coefficient lists. -/
def polyAdd : List ℤ → List ℤ → List ℤ
  | [], m => m
  | l, [] => l
  | a :: l, b :: m => (a + b) :: polyAdd l m

/-- Multiplication of a coefficient list by a scalar. -/
def polyScale (c : ℤ) (l : List ℤ) : List ℤ := l.map (fun x => c * x)

/-- Convolution product of coefficient lists. -/
def polyMul : List ℤ → List ℤ → List ℤ
  | [], _ => []
  | a :: l, m => polyAdd (polyScale a m) (0 :: polyMul l m)

/-- Product of a list of coefficient lists. -/
def polyProd (L : List (List ℤ)) : List ℤ := L.foldr polyMul [1]

/-- Horner evaluation of a coefficient list at an integer point. -/
def polyEval (q : ℤ) (l : List ℤ) : ℤ := l.foldr (fun c acc => c + q * acc) 0

theorem toPoly_nil : toPoly [] = 0 := rfl

theorem toPoly_cons (a : ℤ) (l : List ℤ) :
    toPoly (a :: l) = Polynomial.C a + toPoly l * Polynomial.X := rfl

theorem toPoly_polyAdd (l m : List ℤ) :
    toPoly (polyAdd l m) = toPoly l + toPoly m := by
  induction l generalizing m with
  | nil => simp [polyAdd, toPoly]
  | cons a l ih =>
    cases m with
    | nil => simp [polyAdd, toPoly]
    | cons b m =>
      simp only [polyAdd, toPoly_cons, ih, Polynomial.C_add]
      ring

theorem toPoly_polyScale (c : ℤ) (l : List ℤ) :
    toPoly (polyScale c l) = Polynomial.C c * toPoly l := by
  induction l with
  | nil => simp [polyScale, toPoly]
  | cons a l ih =>
    simp only [polyScale, List.map_cons, toPoly_cons, Polynomial.C_mul]
    rw [show List.map (fun x => c * x) l = polyScale c l from rfl, ih]
    ring

theorem toPoly_polyMul (l m : List ℤ) :
    toPoly (polyMul l m) = toPoly l * toPoly m := by
  induction l with
  | nil => simp [polyMul, toPoly]
  | cons a l ih =>
    simp only [polyMul, toPoly_polyAdd, toPoly_polyScale, toPoly_cons, ih]
    simp only [Polynomial.C_0]
    ring

theorem toPoly_polyProd (L : List (List ℤ)) :
    toPoly (polyProd L) = (L.map toPoly).prod := by
  induction L with
  | nil =>
    simp [polyProd, toPoly]
  | cons a L ih =>
    simp only [polyProd, List.foldr_cons, List.map_cons, List.prod_cons] at *
    rw [toPoly_polyMul, ih]

theorem polyEval_eq (q : ℤ) (l : List ℤ) : polyEval q l = (toPoly l).eval q := by
  induction l with
  | nil => simp [polyEval, toPoly]
  | cons a l ih =>
    simp only [polyEval, List.foldr_cons, toPoly_cons, Polynomial.eval_add,
      Polynomial.eval_C, Polynomial.eval_mul, Polynomial.eval_X]
    rw [show List.foldr (fun c acc => c + q * acc) 0 l = polyEval q l from rfl, ih]
    ring

theorem toPoly_coeff (l : List ℤ) (m : ℕ) : (toPoly l).coeff m = l.getD m 0 := by
  induction l generalizing m with
  | nil => simp [toPoly]
  | cons a l ih =>
    cases m with
    | zero =>
      simp [toPoly_cons, Polynomial.coeff_add, Polynomial.coeff_C_zero,
        Polynomial.coeff_mul_X_zero]
    | succ m =>
      simp only [toPoly_cons, Polynomial.coeff_add, Polynomial.coeff_mul_X, ih,
        Polynomial.coeff_C, List.getD_cons_succ]
      simp

theorem toPoly_coeff_zero (l : List ℤ) : (toPoly l).coeff 0 = l.headD 0 := by
  rw [toPoly_coeff]
  cases l <;> simp

theorem toPoly_degree_lt (l : List ℤ) : (toPoly l).degree < (l.length : ℕ) := by
  rw [Polynomial.degree_lt_iff_coeff_zero]
  intro m hm
  rw [toPoly_coeff]
  exact List.getD_eq_default _ _ hm

/-- Exact division of coefficient lists, working from the constant term
upward; it recovers the quotient whenever the divisor has constant
coefficient `1` or `-1` and the division is exact (the only way it is used:
dividing `X^n - 1` by a product of cyclotomic polynomials). -/
def divLowAux : ℕ → List ℤ → List ℤ → List ℤ
  | 0, _, _ => []
  | fuel + 1, a, b =>
    match a with
    | [] => []
    | a0 :: _ =>
      (a0 * b.headD 0) :: divLowAux fuel (polyAdd a (polyScale (-(a0 * b.headD 0)) b)).tail b

theorem divLowAux_length (fuel : ℕ) (a b : List ℤ) :
    (divLowAux fuel a b).length ≤ fuel := by
  induction fuel generalizing a with
  | zero => simp [divLowAux]
  | succ fuel ih =>
    cases a with
    | nil => simp [divLowAux]
    | cons a0 t =>
      simpa [divLowAux] using ih _

theorem divLowAux_spec (fuel : ℕ) (a b : List ℤ)
    (hb : b.headD 0 * b.headD 0 = 1) :
    ∃ r : Polynomial ℤ,
      toPoly a = toPoly b * toPoly (divLowAux fuel a b) + Polynomial.X ^ fuel * r := by
  induction fuel generalizing a with
  | zero =>
    exact ⟨toPoly a, by simp [divLowAux, toPoly]⟩
  | succ fuel ih =>
    cases a with
    | nil =>
      exact ⟨0, by simp [divLowAux, toPoly]⟩
    | cons a0 t =>
      cases b with
      | nil => simp at hb
      | cons b0 s =>
        simp only [List.headD_cons] at hb
        obtain ⟨r, hr⟩ := ih (polyAdd (a0 :: t) (polyScale (-(a0 * b0)) (b0 :: s))).tail
        refine ⟨r, ?_⟩
        have htail :
            toPoly (polyAdd (a0 :: t) (polyScale (-(a0 * b0)) (b0 :: s))).tail * Polynomial.X =
              toPoly (a0 :: t) + Polynomial.C (-(a0 * b0)) * toPoly (b0 :: s) := by
          have hu : toPoly (polyAdd (a0 :: t) (polyScale (-(a0 * b0)) (b0 :: s))) =
              toPoly (a0 :: t) + Polynomial.C (-(a0 * b0)) * toPoly (b0 :: s) := by
            rw [toPoly_polyAdd, toPoly_polyScale]
          have hcons : polyAdd (a0 :: t) (polyScale (-(a0 * b0)) (b0 :: s)) =
              (a0 + -(a0 * b0) * b0) :: polyAdd t (polyScale (-(a0 * b0)) s) := by
            simp [polyAdd, polyScale]
          have hzero : a0 + -(a0 * b0) * b0 = 0 := by
            have : a0 + -(a0 * b0) * b0 = a0 - a0 * (b0 * b0) := by ring
            rw [this, hb]; ring
          rw [hcons] at hu
          rw [hcons]
          simp only [List.tail_cons]
          rw [toPoly_cons, hzero] at hu
          simp only [Polynomial.C_0, zero_add] at hu
          exact hu
        rw [map_neg] at htail
        simp only [divLowAux, List.headD_cons]
        rw [toPoly_cons (a0 * b0)]
        linear_combination Polynomial.X * hr - htail

theorem divLowAux_exact (fuel : ℕ) (a b : List ℤ) (Q : Polynomial ℤ)
    (hb : b.headD 0 * b.headD 0 = 1) (hQ : toPoly a = toPoly b * Q)
    (hdeg : Q.degree < (fuel : ℕ)) : toPoly (divLowAux fuel a b) = Q := by
  obtain ⟨r, hr⟩ := divLowAux_spec fuel a b hb
  have hb0 : b.headD 0 ≠ 0 := by
    intro h
    rw [h] at hb
    simp at hb
  have hXb : ¬ Polynomial.X ∣ toPoly b := by
    rw [Polynomial.X_dvd_iff, toPoly_coeff_zero]
    exact hb0
  have hmul : toPoly b * (Q - toPoly (divLowAux fuel a b)) = Polynomial.X ^ fuel * r := by
    rw [mul_sub, ← hQ, hr]; ring
  have hdvd : Polynomial.X ^ fuel ∣ Q - toPoly (divLowAux fuel a b) :=
    Polynomial.prime_X.pow_dvd_of_dvd_mul_left fuel hXb ⟨r, hmul⟩
  rcases eq_or_ne (Q - toPoly (divLowAux fuel a b)) 0 with h | h
  · exact (sub_eq_zero.mp h).symm
  · exfalso
    have hle : ((fuel : ℕ) : WithBot ℕ) ≤ (Q - toPoly (divLowAux fuel a b)).degree := by
      have := Polynomial.degree_le_of_dvd hdvd h
      rwa [Polynomial.degree_X_pow] at this
    have hlt : (Q - toPoly (divLowAux fuel a b)).degree < ((fuel : ℕ) : WithBot ℕ) := by
      refine lt_of_le_of_lt (Polynomial.degree_sub_le _ _) (max_lt hdeg ?_)
      refine lt_of_lt_of_le (toPoly_degree_lt _) ?_
      exact_mod_cast Nat.cast_le.mpr (divLowAux_length fuel a b)
    exact absurd hle (not_le.mpr hlt)

/-- Coefficient list of `X^n - 1` (for `n ≥ 1`). -/
def xPowSubOne (n : ℕ) : List ℤ := -1 :: (List.replicate (n - 1) 0 ++ [1])

theorem toPoly_replicate_append (m : ℕ) :
    toPoly (List.replicate m 0 ++ [1]) = Polynomial.X ^ m := by
  induction m with
  | zero => simp [toPoly]
  | succ m ih =>
    rw [List.replicate_succ, List.cons_append, toPoly_cons, ih]
    simp [pow_succ]

theorem toPoly_xPowSubOne {n : ℕ} (hn : 1 ≤ n) :
    toPoly (xPowSubOne n) = Polynomial.X ^ n - 1 := by
  rw [xPowSubOne, toPoly_cons, toPoly_replicate_append]
  rw [← pow_succ, Nat.sub_add_cancel hn]
  simp only [Polynomial.C_neg, Polynomial.C_1]
  ring

/-- List of the proper divisors of `n` (every `d < n` dividing `n`); for
`n ≥ 1` the divisor `0` is excluded automatically since `n % 0 = n ≠ 0`. -/
def properDivisorsList (n : ℕ) : List ℕ := (List.range n).filter (fun d => n % d == 0)

/-- Modelled from the spec: the d-th cyclotomic polynomial, the collaborator
`R.cyclotomic_polynomial(d)` / `sage.rings.polynomial.cyclotomic` used by
`q_binomial`; that code is not part of this repository snapshot.  Computed by
exact division of `X^n - 1` by the product of the cyclotomic polynomials of
the proper divisors of `n`; `fuel` is a structural-recursion bound (any
`fuel > n` gives the same value, see `toPoly_clAux`). -/
def clAux : ℕ → ℕ → List ℤ
  | 0, _ => []
  | fuel + 1, n =>
    if n = 0 then [1]
    else if n = 1 then [-1, 1]
    else
      divLowAux (n + 1) (xPowSubOne n)
        (polyProd ((properDivisorsList n).map (fun d => clAux fuel d)))

/-- Modelled from the spec: coefficient list of the d-th cyclotomic
polynomial (see `clAux`). -/
def cyclotomicList (n : ℕ) : List ℤ := clAux (n + 1) n

/-- Modelled from the spec: "the value of the d-th cyclotomic polynomial
evaluated at q", the collaborator `cyclotomic_value(d, q)` used by the
cyclotomic-generic path of `q_binomial`. -/
def cycValue (d : ℕ) (q : ℤ) : ℤ := polyEval q (cyclotomicList d)

theorem mem_properDivisorsList {n d : ℕ} :
    d ∈ properDivisorsList n ↔ d < n ∧ n % d = 0 := by
  simp [properDivisorsList, List.mem_filter, List.mem_range]

theorem properDivisorsList_nodup (n : ℕ) : (properDivisorsList n).Nodup :=
  (List.nodup_range n).filter _

theorem prod_properDivisorsList {M : Type} [CommMonoid M] (f : ℕ → M) {n : ℕ}
    (hn : n ≠ 0) :
    ((properDivisorsList n).map f).prod = ∏ d ∈ Nat.properDivisors n, f d := by
  rw [← List.prod_toFinset f (properDivisorsList_nodup n)]
  congr 1
  ext d
  simp only [List.mem_toFinset, mem_properDivisorsList, Nat.mem_properDivisors]
  constructor
  · rintro ⟨hdn, hmod⟩
    exact ⟨Nat.dvd_of_mod_eq_zero hmod, hdn⟩
  · rintro ⟨hdvd, hdn⟩
    obtain ⟨c, rfl⟩ := hdvd
    exact ⟨hdn, Nat.mul_mod_right d c⟩

theorem toPoly_clAux :
    ∀ fuel n, n < fuel → toPoly (clAux fuel n) = Polynomial.cyclotomic n ℤ := by
  intro fuel
  induction fuel with
  | zero => intro n hn; exact absurd hn (Nat.not_lt_zero n)
  | succ fuel ih =>
    intro n hn
    by_cases h0 : n = 0
    · subst h0
      simp [clAux, toPoly, Polynomial.cyclotomic_zero]
    by_cases h1 : n = 1
    · subst h1
      rw [show clAux (fuel + 1) 1 = [-1, 1] from by simp [clAux]]
      rw [toPoly_cons, toPoly_cons, toPoly_nil, Polynomial.cyclotomic_one]
      simp only [Polynomial.C_neg, Polynomial.C_1]
      ring
    have hn2 : 2 ≤ n := by omega
    have hmap :
        ((properDivisorsList n).map (fun d => clAux fuel d)).map toPoly =
          (properDivisorsList n).map (fun d => Polynomial.cyclotomic d ℤ) := by
      rw [List.map_map]
      refine List.map_congr_left (fun d hd => ?_)
      exact ih d (lt_of_lt_of_le (mem_properDivisorsList.mp hd).1 (by omega))
    have hBpoly :
        toPoly (polyProd ((properDivisorsList n).map (fun d => clAux fuel d))) =
          ∏ d ∈ Nat.properDivisors n, Polynomial.cyclotomic d ℤ := by
      rw [toPoly_polyProd, hmap, prod_properDivisorsList _ (by omega : n ≠ 0)]
    have hprod :
        (∏ d ∈ Nat.properDivisors n, Polynomial.cyclotomic d ℤ) *
            Polynomial.cyclotomic n ℤ = Polynomial.X ^ n - 1 := by
      have hins :
          ∏ d ∈ insert n (Nat.properDivisors n), Polynomial.cyclotomic d ℤ =
            Polynomial.X ^ n - 1 := by
        rw [Nat.insert_self_properDivisors (by omega : n ≠ 0)]
        exact Polynomial.prod_cyclotomic_eq_X_pow_sub_one (by omega) ℤ
      rw [Finset.prod_insert Nat.properDivisors.not_self_mem] at hins
      rw [mul_comm]
      exact hins
    have hb :
        (polyProd ((properDivisorsList n).map (fun d => clAux fuel d))).headD 0 *
            (polyProd ((properDivisorsList n).map (fun d => clAux fuel d))).headD 0 = 1 := by
      rw [← toPoly_coeff_zero, Polynomial.coeff_zero_eq_eval_zero, hBpoly,
        Polynomial.eval_prod, ← Finset.prod_mul_distrib]
      refine Finset.prod_eq_one (fun d hd => ?_)
      rcases Nat.mem_properDivisors.mp hd with ⟨hdvd, hlt⟩
      have hd1 : 1 ≤ d := by
        rcases Nat.eq_zero_or_pos d with h | h
        · exact absurd (Nat.eq_zero_of_zero_dvd (h ▸ hdvd)) (by omega)
        · exact h
      rcases eq_or_lt_of_le hd1 with h | h
      · rw [← h]
        simp [Polynomial.cyclotomic_one]
      · rw [← Polynomial.coeff_zero_eq_eval_zero,
          Polynomial.cyclotomic_coeff_zero ℤ h]
        norm_num
    have hQ :
        toPoly (xPowSubOne n) =
          toPoly (polyProd ((properDivisorsList n).map (fun d => clAux fuel d))) *
            Polynomial.cyclotomic n ℤ := by
      rw [toPoly_xPowSubOne (by omega : 1 ≤ n), hBpoly, hprod]
    have hdeg : (Polynomial.cyclotomic n ℤ).degree < ((n + 1 : ℕ) : WithBot ℕ) := by
      rw [Polynomial.degree_cyclotomic]
      exact_mod_cast Nat.lt_succ_of_le (Nat.totient_le n)
    simp only [clAux, if_neg h0, if_neg h1]
    exact divLowAux_exact (n + 1) _ _ _ hb hQ hdeg

theorem toPoly_cyclotomicList (n : ℕ) :
    toPoly (cyclotomicList n) = Polynomial.cyclotomic n ℤ :=
  toPoly_clAux (n + 1) n (Nat.lt_succ_self n)

theorem cycValue_eq (d : ℕ) (q : ℤ) :
    cycValue d q = (Polynomial.cyclotomic d ℤ).eval q := by
  rw [cycValue, polyEval_eq, toPoly_cyclotomicList]

/-- The three algorithms of `q_binomial` (source lines 216-248). -/
inductive Algo
  | naive
  | cycloGeneric
  | cycloPolynomial
deriving DecidableEq

/-- Heuristic algorithm selection of `q_binomial` (source lines 216-225),
with the runtime classification of `q` (polynomial of the canonical family /
member of the symbolic ring / other) made explicit as two booleans, per the
specification's closed-enum design note.  The comparison `k <= n/4` uses
exact non-integer division, embedded in `ℚ`.  `k` is the already-normalized
second argument. -/
def chooseAlgo (is_polynomial : Bool) (in_sr : Bool) (n k : ℤ) : Algo :=
  if is_polynomial then
    if n ≤ 70 ∨ (k : ℚ) ≤ (n : ℚ) / 4 then Algo.naive else Algo.cycloPolynomial
  else if in_sr then Algo.cycloGeneric
  else Algo.naive

/-- Denominator of the naive product formula,
`prod([1 - q**i for i in range(1, k+1)])` (source line 228), over any
commutative ring. -/
def qbinomDenom {R : Type} [CommRing R] (k : ℕ) (q : R) : R :=
  ∏ i ∈ Finset.Ioc 0 k, (1 - q ^ i)

/-- Numerator of the naive product formula,
`prod([1 - q**i for i in range(n-k+1, n+1)])` (source line 233). -/
def qbinomNumer {R : Type} [CommRing R] (n k : ℕ) (q : R) : R :=
  ∏ i ∈ Finset.Ioc (n - k) n, (1 - q ^ i)

/-- The cyclotomic-generic product (source lines 239-243): the product of
`cyclotomic_value(d, q)` over `d in range(2, n+1)` such that
`floor(n/d) != floor(k/d) + floor((n-k)/d)`; for natural `n, d` the floor of
the exact quotient is natural-number division. -/
def qbinomCyclo (n k : ℕ) (q : ℤ) : ℤ :=
  ∏ d ∈ (Finset.Ioc 1 n).filter (fun d => n / d ≠ k / d + (n - k) / d), cycValue d q

/-- Index list `[d for d in range(2, n+1) if floor(n/d) != floor(k/d) +
floor((n-k)/d)]` shared by both cyclotomic paths. -/
def cycloIndexList (n k : ℕ) : List ℕ :=
  (List.range (n + 1)).filter (fun d => decide (2 ≤ d) && (n / d != k / d + (n - k) / d))

/-- The cyclotomic-polynomial path (source lines 244-248): the product of the
symbolic cyclotomic polynomials `R.cyclotomic_polynomial(d)` over the same
index set, as an element of the polynomial ring (a coefficient list). -/
def qbinomCycloPoly (n k : ℕ) : List ℤ :=
  polyProd ((cycloIndexList n k).map cyclotomicList)

/-- The q-binomial coefficient `q_binomial(n, k, q)` for the integer
instantiation of `q` (source lines 199-243; `//` is floor division,
`Int.fdiv`, and the `TypeError` fallback to true division never fires on
integers).  Non-integer `n, k` cannot arise in this typed embedding; `n < 0`
raises, out-of-range `k` returns `0` (lines 202-205), then `k` is normalized
to `min(n-k, k)` (line 206).  A numeric `q` runs the naive algorithm with the
root-of-unity fallback (`denomin == 0`) to the cyclotomic-generic product
(lines 227-243); by `qbinom_fdiv_eq_cyclo` below the value is unchanged if
the runtime classification routes a numeric `q` directly to the
cyclotomic-generic path. -/
def q_binomial (n k : ℤ) (q : ℤ) : Except String ℤ :=
  if n < 0 then Except.error "n must be nonnegative"
  else if ¬ (0 ≤ k ∧ k ≤ n) then Except.ok 0
  else
    let kk : ℕ := (min (n - k) k).toNat
    let nn : ℕ := n.toNat
    let denomin : ℤ := qbinomDenom kk q
    if denomin = 0 then Except.ok (qbinomCyclo nn kk q)
    else Except.ok ((qbinomNumer nn kk q).fdiv denomin)

/-- The product of the cyclotomic polynomials over the index set of the
cyclotomic paths of `q_binomial`. -/
noncomputable def cycloProdPoly (n k : ℕ) : Polynomial ℤ :=
  ∏ d ∈ (Finset.Ioc 1 n).filter (fun d => n / d ≠ k / d + (n - k) / d),
    Polynomial.cyclotomic d ℤ

theorem divisors_eq_filter {i m : ℕ} (hi : 0 < i) (him : i ≤ m) :
    Nat.divisors i = (Finset.Ioc 0 m).filter (fun d => d ∣ i) := by
  ext d
  simp only [Nat.mem_divisors, Finset.mem_filter, Finset.mem_Ioc]
  constructor
  · rintro ⟨hdvd, hne⟩
    have hd0 : 0 < d := Nat.pos_of_dvd_of_pos hdvd hi
    exact ⟨⟨hd0, le_trans (Nat.le_of_dvd hi hdvd) him⟩, hdvd⟩
  · rintro ⟨_, hdvd⟩
    exact ⟨hdvd, by omega⟩

theorem prod_X_pow_sub_one_eq (m : ℕ) :
    ∏ i ∈ Finset.Ioc 0 m, (Polynomial.X ^ i - 1 : Polynomial ℤ) =
      ∏ d ∈ Finset.Ioc 0 m, Polynomial.cyclotomic d ℤ ^ (m / d) := by
  calc
    ∏ i ∈ Finset.Ioc 0 m, (Polynomial.X ^ i - 1 : Polynomial ℤ)
        = ∏ i ∈ Finset.Ioc 0 m, ∏ d ∈ Nat.divisors i, Polynomial.cyclotomic d ℤ := by
          refine Finset.prod_congr rfl (fun i hi => ?_)
          rw [Polynomial.prod_cyclotomic_eq_X_pow_sub_one (Finset.mem_Ioc.mp hi).1 ℤ]
    _ = ∏ i ∈ Finset.Ioc 0 m, ∏ d ∈ Finset.Ioc 0 m,
          (if d ∣ i then Polynomial.cyclotomic d ℤ else 1) := by
          refine Finset.prod_congr rfl (fun i hi => ?_)
          rcases Finset.mem_Ioc.mp hi with ⟨hi0, him⟩
          rw [divisors_eq_filter hi0 him, Finset.prod_filter]
    _ = ∏ d ∈ Finset.Ioc 0 m, ∏ i ∈ Finset.Ioc 0 m,
          (if d ∣ i then Polynomial.cyclotomic d ℤ else 1) := Finset.prod_comm
    _ = ∏ d ∈ Finset.Ioc 0 m, Polynomial.cyclotomic d ℤ ^ (m / d) := by
          refine Finset.prod_congr rfl (fun d hd => ?_)
          rw [← Finset.prod_filter, Finset.prod_const,
            Nat.Ioc_filter_dvd_card_eq_div]

theorem qbinom_div_key {n k : ℕ} (hk : k ≤ n) {d : ℕ} (hd : 0 < d) :
    n / d = k / d + (n - k) / d + (if n / d ≠ k / d + (n - k) / d then 1 else 0) := by
  have hadd := Nat.add_div (a := k) (b := n - k) hd
  rw [Nat.add_sub_cancel' hk] at hadd
  by_cases h2 : d ≤ k % d + (n - k) % d
  · rw [if_pos h2] at hadd
    have hne : n / d ≠ k / d + (n - k) / d := by omega
    rw [if_pos hne]
    omega
  · rw [if_neg h2] at hadd
    have heq : n / d = k / d + (n - k) / d := by omega
    rw [if_neg (by omega : ¬ n / d ≠ k / d + (n - k) / d)]
    omega

theorem qbinom_filter_eq {n k : ℕ} (hk : k ≤ n) :
    (Finset.Ioc 0 n).filter (fun d => n / d ≠ k / d + (n - k) / d) =
      (Finset.Ioc 1 n).filter (fun d => n / d ≠ k / d + (n - k) / d) := by
  ext d
  simp only [Finset.mem_filter, Finset.mem_Ioc]
  constructor
  · rintro ⟨⟨hd0, hdn⟩, hcond⟩
    refine ⟨⟨?_, hdn⟩, hcond⟩
    rcases Nat.lt_or_ge 1 d with h | h
    · exact h
    · exfalso
      have hd1 : d = 1 := by omega
      subst hd1
      simp only [Nat.div_one] at hcond
      exact hcond (by omega)
  · rintro ⟨⟨hd1, hdn⟩, hcond⟩
    exact ⟨⟨by omega, hdn⟩, hcond⟩

theorem cyclo_split {n k : ℕ} (hk : k ≤ n) :
    ∏ i ∈ Finset.Ioc 0 n, (Polynomial.X ^ i - 1 : Polynomial ℤ) =
      (∏ i ∈ Finset.Ioc 0 k, (Polynomial.X ^ i - 1 : Polynomial ℤ)) *
        (∏ i ∈ Finset.Ioc 0 (n - k), (Polynomial.X ^ i - 1 : Polynomial ℤ)) *
          cycloProdPoly n k := by
  rw [prod_X_pow_sub_one_eq n, prod_X_pow_sub_one_eq k, prod_X_pow_sub_one_eq (n - k)]
  have hstep :
      ∏ d ∈ Finset.Ioc 0 n, Polynomial.cyclotomic d ℤ ^ (n / d) =
        ∏ d ∈ Finset.Ioc 0 n,
          (Polynomial.cyclotomic d ℤ ^ (k / d) *
            Polynomial.cyclotomic d ℤ ^ ((n - k) / d) *
              (if n / d ≠ k / d + (n - k) / d then Polynomial.cyclotomic d ℤ else 1)) := by
    refine Finset.prod_congr rfl (fun d hd => ?_)
    have hd0 : 0 < d := (Finset.mem_Ioc.mp hd).1
    rw [← pow_add]
    have hite :
        (if n / d ≠ k / d + (n - k) / d then Polynomial.cyclotomic d ℤ else 1) =
          Polynomial.cyclotomic d ℤ ^
            (if n / d ≠ k / d + (n - k) / d then 1 else 0) := by
      split_ifs <;> simp
    rw [hite, ← pow_add, ← qbinom_div_key hk hd0]
  rw [hstep, Finset.prod_mul_distrib, Finset.prod_mul_distrib]
  congr 1
  · congr 1
    · refine (Finset.prod_subset (Finset.Ioc_subset_Ioc le_rfl hk) ?_).symm
      intro d hd hnd
      have h1 : 0 < d := (Finset.mem_Ioc.mp hd).1
      have h2 : k < d := by
        rcases Finset.mem_Ioc.mp hd with ⟨hd0, hdn⟩
        by_contra hcon
        exact hnd (Finset.mem_Ioc.mpr ⟨hd0, by omega⟩)
      rw [Nat.div_eq_of_lt h2, pow_zero]
    · refine (Finset.prod_subset (Finset.Ioc_subset_Ioc le_rfl (Nat.sub_le n k)) ?_).symm
      intro d hd hnd
      have h2 : n - k < d := by
        rcases Finset.mem_Ioc.mp hd with ⟨hd0, hdn⟩
        by_contra hcon
        exact hnd (Finset.mem_Ioc.mpr ⟨hd0, by omega⟩)
      rw [Nat.div_eq_of_lt h2, pow_zero]
  · rw [← Finset.prod_filter, qbinom_filter_eq hk, cycloProdPoly]

theorem master_X_pow_sub_one {n k : ℕ} (hk : k ≤ n) :
    ∏ i ∈ Finset.Ioc (n - k) n, (Polynomial.X ^ i - 1 : Polynomial ℤ) =
      cycloProdPoly n k *
        ∏ i ∈ Finset.Ioc 0 k, (Polynomial.X ^ i - 1 : Polynomial ℤ) := by
  have hsplit :
      (∏ i ∈ Finset.Ioc 0 (n - k), (Polynomial.X ^ i - 1 : Polynomial ℤ)) *
          ∏ i ∈ Finset.Ioc (n - k) n, (Polynomial.X ^ i - 1 : Polynomial ℤ) =
        ∏ i ∈ Finset.Ioc 0 n, (Polynomial.X ^ i - 1 : Polynomial ℤ) :=
    Finset.prod_Ioc_consecutive _ (Nat.zero_le _) (Nat.sub_le n k)
  have hPne :
      (∏ i ∈ Finset.Ioc 0 (n - k), (Polynomial.X ^ i - 1 : Polynomial ℤ)) ≠ 0 := by
    refine Finset.prod_ne_zero_iff.mpr (fun i hi => ?_)
    have hi0 : 0 < i := (Finset.mem_Ioc.mp hi).1
    have := Polynomial.X_pow_sub_C_ne_zero (R := ℤ) hi0 1
    simpa using this
  refine mul_left_cancel₀ hPne ?_
  rw [hsplit, cyclo_split hk]
  ring

theorem prod_one_sub_X_pow (s : Finset ℕ) :
    ∏ i ∈ s, (1 - Polynomial.X ^ i : Polynomial ℤ) =
      (-1) ^ s.card * ∏ i ∈ s, (Polynomial.X ^ i - 1 : Polynomial ℤ) := by
  rw [← Finset.prod_const, ← Finset.prod_mul_distrib]
  exact Finset.prod_congr rfl (fun i _ => by ring)

theorem master_one_sub_X_pow {n k : ℕ} (hk : k ≤ n) :
    ∏ i ∈ Finset.Ioc (n - k) n, (1 - Polynomial.X ^ i : Polynomial ℤ) =
      cycloProdPoly n k *
        ∏ i ∈ Finset.Ioc 0 k, (1 - Polynomial.X ^ i : Polynomial ℤ) := by
  rw [prod_one_sub_X_pow, prod_one_sub_X_pow, Nat.card_Ioc, Nat.card_Ioc,
    master_X_pow_sub_one hk, Nat.sub_zero, show n - (n - k) = k by omega]
  ring

/-- The naive numerator equals the cyclotomic-generic product times the naive
denominator, for any integer `q`: the division-free form of the equivalence
of the two paths of `q_binomial`. -/
theorem qbinomNumer_eq_cyclo_mul_denom {n k : ℕ} (hk : k ≤ n) (q : ℤ) :
    qbinomNumer n k q = qbinomCyclo n k q * qbinomDenom k q := by
  have h := congrArg (Polynomial.eval q) (master_one_sub_X_pow hk)
  simp only [cycloProdPoly, Polynomial.eval_mul, Polynomial.eval_prod,
    Polynomial.eval_sub, Polynomial.eval_pow, Polynomial.eval_X,
    Polynomial.eval_one] at h
  rw [qbinomNumer, qbinomCyclo, qbinomDenom]
  rw [show (∏ d ∈ (Finset.Ioc 1 n).filter
        (fun d => n / d ≠ k / d + (n - k) / d), cycValue d q) =
      ∏ d ∈ (Finset.Ioc 1 n).filter (fun d => n / d ≠ k / d + (n - k) / d),
        (Polynomial.cyclotomic d ℤ).eval q from
    Finset.prod_congr rfl (fun d _ => cycValue_eq d q)]
  exact h

/-- Exact floor division of the naive path agrees with the cyclotomic-generic
product whenever the denominator is nonzero. -/
theorem qbinom_fdiv_eq_cyclo {n k : ℕ} (hk : k ≤ n) (q : ℤ)
    (hden : qbinomDenom k q ≠ 0) :
    (qbinomNumer n k q).fdiv (qbinomDenom k q) = qbinomCyclo n k q := by
  rw [qbinomNumer_eq_cyclo_mul_denom hk q]
  exact Int.mul_fdiv_cancel _ hden

theorem master_geom {n k : ℕ} (hk : k ≤ n) :
    ∏ i ∈ Finset.Ioc (n - k) n,
        (∑ j ∈ Finset.range i, (Polynomial.X : Polynomial ℤ) ^ j) =
      cycloProdPoly n k *
        ∏ i ∈ Finset.Ioc 0 k,
          (∑ j ∈ Finset.range i, (Polynomial.X : Polynomial ℤ) ^ j) := by
  have hfac : ∀ i : ℕ, (Polynomial.X ^ i - 1 : Polynomial ℤ) =
      (∑ j ∈ Finset.range i, (Polynomial.X : Polynomial ℤ) ^ j) *
        (Polynomial.X - 1) := fun i => (geom_sum_mul _ i).symm
  have h := master_X_pow_sub_one hk
  simp only [hfac] at h
  rw [Finset.prod_mul_distrib, Finset.prod_mul_distrib, Finset.prod_const,
    Finset.prod_const, Nat.card_Ioc, Nat.card_Ioc, Nat.sub_zero,
    show n - (n - k) = k by omega] at h
  have hXone : (Polynomial.X - 1 : Polynomial ℤ) ^ k ≠ 0 := by
    refine pow_ne_zero k ?_
    have := Polynomial.X_sub_C_ne_zero (R := ℤ)
    intro hzero
    have h1 : (Polynomial.X - Polynomial.C 1 : Polynomial ℤ) = 0 := by
      simpa using hzero
    exact Polynomial.X_sub_C_ne_zero 1 h1
  refine mul_right_cancel₀ hXone ?_
  rw [h]
  ring

/-- The cyclotomic-generic product at `q = 1` is the ordinary binomial
coefficient. -/
theorem qbinomCyclo_one {n k : ℕ} (hk : k ≤ n) :
    qbinomCyclo n k 1 = (n.choose k : ℤ) := by
  have h := congrArg (Polynomial.eval 1) (master_geom hk)
  simp only [Polynomial.eval_mul, Polynomial.eval_prod, Polynomial.eval_finset_sum,
    Polynomial.eval_pow, Polynomial.eval_X, one_pow, Finset.sum_const,
    Finset.card_range, nsmul_eq_mul, mul_one] at h
  -- h : ∏ i ∈ Ioc (n-k) n, (i : ℤ) = (cycloProdPoly n k).eval 1 * ∏ i ∈ Ioc 0 k, (i : ℤ)
  have hnum : (∏ i ∈ Finset.Ioc (n - k) n, (i : ℤ)) = ((n.choose k * k.factorial : ℕ) : ℤ) := by
    have hfac : ∀ m : ℕ, (∏ i ∈ Finset.Ioc 0 m, i) = m.factorial := by
      intro m
      rw [← Nat.Icc_succ_left, ← Nat.Ico_succ_right]
      exact Finset.prod_Ico_id_eq_factorial m
    have hsplit :
        (∏ i ∈ Finset.Ioc 0 (n - k), i) * ∏ i ∈ Finset.Ioc (n - k) n, i =
          ∏ i ∈ Finset.Ioc 0 n, i :=
      Finset.prod_Ioc_consecutive _ (Nat.zero_le _) (Nat.sub_le n k)
    have hchoose := Nat.choose_mul_factorial_mul_factorial hk
    have hN : (∏ i ∈ Finset.Ioc (n - k) n, i) = n.choose k * k.factorial := by
      have h1 : (n - k).factorial * ∏ i ∈ Finset.Ioc (n - k) n, i = n.factorial := by
        rw [← hfac (n - k), hsplit, hfac]
      have h2 : (n - k).factorial * (n.choose k * k.factorial) = n.factorial := by
        rw [← hchoose]; ring
      exact Nat.eq_of_mul_eq_mul_left (Nat.factorial_pos (n - k)) (by rw [h1, h2])
    rw [← hN]
    push_cast
    rfl
  have hden : (∏ i ∈ Finset.Ioc 0 k, (i : ℤ)) = (k.factorial : ℤ) := by
    have : (∏ i ∈ Finset.Ioc 0 k, i) = k.factorial := by
      rw [← Nat.Icc_succ_left, ← Nat.Ico_succ_right]
      exact Finset.prod_Ico_id_eq_factorial k
    rw [← this]
    push_cast
    rfl
  have hcyc : qbinomCyclo n k 1 = (cycloProdPoly n k).eval 1 := by
    rw [qbinomCyclo, cycloProdPoly, Polynomial.eval_prod]
    exact Finset.prod_congr rfl (fun d _ => cycValue_eq d 1)
  have hfin : ((n.choose k * k.factorial : ℕ) : ℤ) =
      (cycloProdPoly n k).eval 1 * (k.factorial : ℤ) := by
    rw [← hnum, ← hden, h]
  rw [hcyc]
  have hkfac : ((k.factorial : ℕ) : ℤ) ≠ 0 := by
    exact_mod_cast Nat.factorial_ne_zero k
  refine mul_right_cancel₀ hkfac ?_
  rw [← hfin]
  push_cast
  ring

theorem cycloIndexList_nodup (n k : ℕ) : (cycloIndexList n k).Nodup :=
  (List.nodup_range _).filter _

theorem cycloIndexList_toFinset (n k : ℕ) :
    (cycloIndexList n k).toFinset =
      (Finset.Ioc 1 n).filter (fun d => n / d ≠ k / d + (n - k) / d) := by
  ext d
  simp only [cycloIndexList, List.mem_toFinset, List.mem_filter, List.mem_range,
    Finset.mem_filter, Finset.mem_Ioc, Bool.and_eq_true, decide_eq_true_eq,
    bne_iff_ne, ne_eq]
  constructor
  · rintro ⟨hlt, h2, hcond⟩
    exact ⟨⟨by omega, by omega⟩, hcond⟩
  · rintro ⟨⟨h1, hn⟩, hcond⟩
    exact ⟨by omega, by omega, hcond⟩

theorem toPoly_qbinomCycloPoly (n k : ℕ) :
    toPoly (qbinomCycloPoly n k) = cycloProdPoly n k := by
  rw [qbinomCycloPoly, toPoly_polyProd, List.map_map]
  rw [show (cycloIndexList n k).map (toPoly ∘ cyclotomicList) =
      (cycloIndexList n k).map (fun d => Polynomial.cyclotomic d ℤ) from
    List.map_congr_left (fun d _ => toPoly_cyclotomicList d)]
  rw [← List.prod_toFinset _ (cycloIndexList_nodup n k),
    cycloIndexList_toFinset, cycloProdPoly]

/-- Evaluating the cyclotomic-polynomial path at an integer point gives the
cyclotomic-generic product. -/
theorem polyEval_qbinomCycloPoly (n k : ℕ) (q : ℤ) :
    polyEval q (qbinomCycloPoly n k) = qbinomCyclo n k q := by
  rw [polyEval_eq, toPoly_qbinomCycloPoly, cycloProdPoly, qbinomCyclo,
    Polynomial.eval_prod]
  exact Finset.prod_congr rfl (fun d _ => (cycValue_eq d q).symm)

/-- The q-analogue of the integer `n` (source lines 26-67), in the
nonnegative branch `sum(p**i for i in range(n))` used by `q_factorial` and
`q_catalan_number` (their arguments are always nonnegative; the negative
branch is never exercised by these callers). -/
def q_int {R : Type} [CommRing R] (n : ℕ) (p : R) : R :=
  ∑ i ∈ Finset.range n, p ^ i

/-- The q-analogue of the factorial,
`prod([q_int(i, p) for i in range(1, n+1)])` (source lines 69-96); the
validation `n >= 0` is carried by the type of `n`. -/
def q_factorial {R : Type} [CommRing R] (n : ℕ) (p : R) : R :=
  ∏ i ∈ Finset.Ioc 0 n, q_int i p

/-- The q-Catalan number (source lines 252-282):
`prod(q_int(j, p) for j in range(n+2, 2*n+1)) / prod(q_int(j, p) for j in
range(2, n+1))`, with the true division `/` of the source embedded in `ℚ`;
the validation `n >= 0` is carried by the type of `n`. -/
def q_catalan_number (n : ℕ) (p : ℚ) : ℚ :=
  (∏ j ∈ Finset.Ioc (n + 1) (2 * n), q_int j p) /
    ∏ j ∈ Finset.Ioc 1 n, q_int j p

theorem q_int_one {R : Type} [CommRing R] (n : ℕ) : q_int n (1 : R) = n := by
  simp [q_int]

theorem prod_Ioc_zero_id_eq_factorial (m : ℕ) :
    (∏ i ∈ Finset.Ioc 0 m, i) = m.factorial := by
  rw [← Nat.Icc_succ_left, ← Nat.Ico_succ_right]
  exact Finset.prod_Ico_id_eq_factorial m

theorem prod_Ioc_one_id_eq_factorial (m : ℕ) :
    (∏ i ∈ Finset.Ioc 1 m, i) = m.factorial := by
  induction m with
  | zero => rfl
  | succ m ih =>
    rcases Nat.eq_zero_or_pos m with h | h
    · subst h
      decide
    · rw [Finset.prod_Ioc_succ_top h, ih, Nat.factorial_succ]
      ring

theorem catalan_factorial (n : ℕ) :
    catalan n * n.factorial * (n + 1).factorial = (2 * n).factorial := by
  have h1 := Nat.choose_mul_factorial_mul_factorial (show n ≤ 2 * n by omega)
  rw [show 2 * n - n = n by omega] at h1
  have h3 := succ_mul_catalan_eq_centralBinom n
  rw [Nat.centralBinom_eq_two_mul_choose] at h3
  calc
    catalan n * n.factorial * (n + 1).factorial
        = ((n + 1) * catalan n) * n.factorial * n.factorial := by
          rw [Nat.factorial_succ]; ring
    _ = (2 * n).choose n * n.factorial * n.factorial := by rw [h3]
    _ = (2 * n).factorial := h1

theorem q_catalan_numerator (n : ℕ) :
    (∏ i ∈ Finset.Ioc (n + 1) (2 * n), i) = catalan n * n.factorial := by
  rcases Nat.eq_zero_or_pos n with h | h
  · subst h
    rw [show 2 * 0 = 0 from rfl, Finset.Ioc_eq_empty (by omega),
      Finset.prod_empty, catalan_zero]
    rfl
  · have hsplit :
        (∏ i ∈ Finset.Ioc 0 (n + 1), i) * ∏ i ∈ Finset.Ioc (n + 1) (2 * n), i =
          ∏ i ∈ Finset.Ioc 0 (2 * n), i :=
      Finset.prod_Ioc_consecutive _ (Nat.zero_le _) (by omega)
    rw [prod_Ioc_zero_id_eq_factorial, prod_Ioc_zero_id_eq_factorial] at hsplit
    refine Nat.eq_of_mul_eq_mul_left (Nat.factorial_pos (n + 1)) ?_
    rw [hsplit, ← catalan_factorial n]
    ring

theorem q_catalan_number_one (n : ℕ) :
    q_catalan_number n 1 = (catalan n : ℚ) := by
  rw [q_catalan_number]
  rw [show (∏ j ∈ Finset.Ioc (n + 1) (2 * n), q_int j (1 : ℚ)) =
      ∏ j ∈ Finset.Ioc (n + 1) (2 * n), (j : ℚ) from
    Finset.prod_congr rfl (fun j _ => q_int_one j)]
  rw [show (∏ j ∈ Finset.Ioc 1 n, q_int j (1 : ℚ)) =
      ∏ j ∈ Finset.Ioc 1 n, (j : ℚ) from
    Finset.prod_congr rfl (fun j _ => q_int_one j)]
  rw [← Nat.cast_prod, ← Nat.cast_prod, q_catalan_numerator,
    prod_Ioc_one_id_eq_factorial]
  have hne : ((n.factorial : ℕ) : ℚ) ≠ 0 := by
    exact_mod_cast Nat.factorial_ne_zero n
  push_cast
  rw [mul_div_assoc, div_self (by exact_mod_cast Nat.factorial_ne_zero n), mul_one]

/-- Modelled from the spec: the partition normalization `Partition(tp)` of
the external partition type (not part of this snapshot): an entry decremented
to `0` is removed, keeping a valid partition of one smaller integer. -/
def mkPartition (l : List ℕ) : List ℕ := l.filter (fun x => x != 0)

/-- The loop of `q_jordan` (source lines 382-391): indices are scanned from
`i` down to `0`; `tj` is the running previous distinct part value (updated to
`t[i]` exactly when `t[i] > tj`); `rec` is the recursive call on the
decremented partition; `//` is exact floor division `Int.fdiv`. -/
def qJordanGo (rec : List ℕ → ℤ) (t : List ℕ) (q : ℤ) : ℕ → ℕ → ℤ
  | 0, tj =>
    if t.getD 0 0 > tj then
      rec (mkPartition (t.set 0 (t.getD 0 0 - 1))) *
        ((q ^ t.getD 0 0 - q ^ tj).fdiv (q - 1))
    else 0
  | i + 1, tj =>
    if t.getD (i + 1) 0 > tj then
      rec (mkPartition (t.set (i + 1) (t.getD (i + 1) 0 - 1))) *
          ((q ^ t.getD (i + 1) 0 - q ^ tj).fdiv (q - 1)) +
        qJordanGo rec t q i (t.getD (i + 1) 0)
    else qJordanGo rec t q i tj

/-- The recursion of `q_jordan` (source lines 377-391) with an explicit
structural bound `fuel` on the recursion depth; each recursive call is on a
partition of total size one less (`qJordan_call_sum_lt`), so any
`fuel > t.sum` computes the recursion faithfully (`qJordanAux_congr_fuel`).
The recursive calls of the source re-enter through the `q == 1` guard, which
passes because `q` never changes. -/
def qJordanAux : ℕ → List ℕ → ℤ → ℤ
  | 0, _, _ => 0
  | fuel + 1, t, q =>
    if t.length = 0 then 1
    else qJordanGo (fun s => qJordanAux fuel s q) t q (t.length - 1) 0

/-- `q_jordan(t, q)` (source lines 318-391): eager `q == 1` validation, then
the recursive scan; the memoization cache changes no return value and is not
modelled. -/
def q_jordan (t : List ℕ) (q : ℤ) : Except String ℤ :=
  if q = 1 then Except.error "q must not be equal to 1"
  else Except.ok (qJordanAux (t.sum + 1) t q)

theorem mkPartition_sum (l : List ℕ) : (mkPartition l).sum = l.sum := by
  induction l with
  | nil => rfl
  | cons a l ih =>
    by_cases h : a = 0
    · subst h
      simpa [mkPartition, List.filter_cons] using ih
    · simp only [mkPartition, List.filter_cons] at ih ⊢
      rw [if_pos (by simpa using h)]
      simp [ih]

theorem sum_set {l : List ℕ} {i : ℕ} (h : i < l.length) (v : ℕ) :
    (l.set i v).sum + l.getD i 0 = l.sum + v := by
  induction l generalizing i with
  | nil => simp at h
  | cons a l ih =>
    cases i with
    | zero =>
      simp only [List.set_cons_zero, List.sum_cons, List.getD_cons_zero]
      omega
    | succ i =>
      have hi : i < l.length := by simpa using h
      have := ih hi
      simp only [List.set_cons_succ, List.sum_cons, List.getD_cons_succ]
      omega

/-- The partition passed to the recursive call has total size strictly less
than `t` (in fact exactly one less). -/
theorem qJordan_call_sum_lt {t : List ℕ} {i tj : ℕ} (hgt : t.getD i 0 > tj) :
    (mkPartition (t.set i (t.getD i 0 - 1))).sum < t.sum := by
  rcases Nat.lt_or_ge i t.length with hi | hi
  · have hset := sum_set hi (t.getD i 0 - 1)
    rw [mkPartition_sum]
    omega
  · rw [List.getD_eq_default _ _ hi] at hgt
    omega

theorem qJordanGo_congr {rec1 rec2 : List ℕ → ℤ} (t : List ℕ) (q : ℤ)
    (h : ∀ s : List ℕ, s.sum < t.sum → rec1 s = rec2 s) :
    ∀ i tj, qJordanGo rec1 t q i tj = qJordanGo rec2 t q i tj := by
  intro i
  induction i with
  | zero =>
    intro tj
    simp only [qJordanGo]
    split_ifs with hgt
    · rw [h _ (qJordan_call_sum_lt hgt)]
    · rfl
  | succ i ih =>
    intro tj
    simp only [qJordanGo]
    split_ifs with hgt
    · rw [h _ (qJordan_call_sum_lt hgt), ih]
    · exact ih tj

theorem qJordanAux_congr_fuel :
    ∀ (N : ℕ) (t : List ℕ) (q : ℤ) (f g : ℕ), t.sum ≤ N → t.sum < f →
      t.sum < g → qJordanAux f t q = qJordanAux g t q := by
  intro N
  induction N with
  | zero =>
    intro t q f g hN hf hg
    obtain ⟨f', rfl⟩ : ∃ f', f = f' + 1 := ⟨f - 1, by omega⟩
    obtain ⟨g', rfl⟩ : ∃ g', g = g' + 1 := ⟨g - 1, by omega⟩
    simp only [qJordanAux]
    split_ifs with hlen
    · rfl
    · exact qJordanGo_congr t q (fun s hs => absurd hs (by omega)) _ _
  | succ N ih =>
    intro t q f g hN hf hg
    obtain ⟨f', rfl⟩ : ∃ f', f = f' + 1 := ⟨f - 1, by omega⟩
    obtain ⟨g', rfl⟩ : ∃ g', g = g' + 1 := ⟨g - 1, by omega⟩
    simp only [qJordanAux]
    split_ifs with hlen
    · rfl
    · refine qJordanGo_congr t q (fun s hs => ?_) _ _
      exact ih s q f' g' (by omega) (by omega) (by omega)

theorem fdiv_geom (q : ℤ) (hq : q ≠ 1) (n : ℕ) :
    (q ^ n - 1).fdiv (q - 1) = ∑ i ∈ Finset.range n, q ^ i := by
  rw [← geom_sum_mul q n]
  refine Int.mul_fdiv_cancel _ ?_
  intro h
  exact hq (by omega)

theorem qJordanAux_single (q : ℤ) (hq : q ≠ 1) :
    ∀ (fuel n : ℕ), n < fuel →
      qJordanAux fuel (if n = 0 then ([] : List ℕ) else [n]) q =
        q_factorial n q := by
  intro fuel
  induction fuel with
  | zero => intro n hn; omega
  | succ fuel ih =>
    intro n hn
    rcases Nat.eq_zero_or_pos n with h0 | h0
    · subst h0
      simp [qJordanAux, q_factorial]
    obtain ⟨m, rfl⟩ : ∃ m, n = m + 1 := ⟨n - 1, by omega⟩
    rw [if_neg (by omega)]
    simp only [qJordanAux, List.length_cons, List.length_nil]
    rw [if_neg (by omega)]
    simp only [Nat.add_sub_cancel, Nat.sub_self, qJordanGo, List.getD_cons_zero]
    rw [if_pos (by omega : m + 1 > 0)]
    have hset : ([m + 1] : List ℕ).set 0 m = [m] := by simp
    have hmk : mkPartition [m] = if m = 0 then ([] : List ℕ) else [m] := by
      by_cases h : m = 0
      · subst h; rfl
      · rw [if_neg h]
        simp [mkPartition, List.filter_cons, h]
    rw [hset, hmk, ih m (by omega)]
    rw [pow_zero, fdiv_geom q hq (m + 1)]
    rw [q_factorial, q_factorial, Finset.prod_Ioc_succ_top (Nat.zero_le m)]
    rw [q_int]

theorem qJordan_call_sum_succ {t : List ℕ} {i : ℕ} (h : 1 ≤ t.getD i 0) :
    (mkPartition (t.set i (t.getD i 0 - 1))).sum + 1 = t.sum := by
  rcases Nat.lt_or_ge i t.length with hi | hi
  · have hset := sum_set hi (t.getD i 0 - 1)
    rw [mkPartition_sum]
    omega
  · rw [List.getD_eq_default _ _ hi] at h
    omega

/-- For `0 ≤ k ≤ n`, `q_binomial` returns the cyclotomic-generic product of
the normalized arguments, whichever internal branch runs. -/
theorem q_binomial_eq_cyclo (n k : ℤ) (hn : 0 ≤ n) (hk0 : 0 ≤ k) (hkn : k ≤ n)
    (q : ℤ) :
    q_binomial n k q =
      Except.ok (qbinomCyclo n.toNat (min (n - k) k).toNat q) := by
  have hkk : (min (n - k) k).toNat ≤ n.toNat := by omega
  simp only [q_binomial]
  rw [if_neg (not_lt.mpr hn), if_neg (not_not_intro ⟨hk0, hkn⟩)]
  split_ifs with hden
  · rfl
  · rw [qbinom_fdiv_eq_cyclo hkk q hden]

/-- Claim C1: for every integer `n ≥ 0` and every integer `k` with
`0 ≤ k ≤ n`, `q_binomial(n, k, 1)` equals the ordinary binomial coefficient
`C(n, k)`. -/
theorem q_binomial_at_one_eq_choose (n k : ℤ) (hn : 0 ≤ n) (hk0 : 0 ≤ k)
    (hkn : k ≤ n) :
    q_binomial n k 1 = Except.ok ((n.toNat.choose k.toNat : ℕ) : ℤ) := by
  rw [q_binomial_eq_cyclo n k hn hk0 hkn 1]
  have h1 : (min (n - k) k).toNat = min (n.toNat - k.toNat) k.toNat := by omega
  have hK : k.toNat ≤ n.toNat := by omega
  rw [h1, qbinomCyclo_one (by omega)]
  rcases Nat.le_total (n.toNat - k.toNat) k.toNat with h | h
  · rw [min_eq_left h, Nat.choose_symm hK]
  · rw [min_eq_right h]

theorem q_binomial_at_one_eq_choose_witness :
    q_binomial 4 2 1 = Except.ok (((4 : ℤ).toNat.choose (2 : ℤ).toNat : ℕ) : ℤ) :=
  q_binomial_at_one_eq_choose 4 2 (by decide) (by decide) (by decide)

/-- Claim C2: where more than one algorithm path of `q_binomial` applies, the
paths agree: the naive floor-division result equals the cyclotomic-generic
product whenever the naive denominator is nonzero, and the
cyclotomic-polynomial product evaluates at every `q` to the
cyclotomic-generic product. -/
theorem q_binomial_paths_agree (n k : ℕ) (q : ℤ) (hk : k ≤ n) :
    (qbinomDenom k q ≠ 0 →
        (qbinomNumer n k q).fdiv (qbinomDenom k q) = qbinomCyclo n k q) ∧
      polyEval q (qbinomCycloPoly n k) = qbinomCyclo n k q :=
  ⟨fun hden => qbinom_fdiv_eq_cyclo hk q hden, polyEval_qbinomCycloPoly n k q⟩

theorem q_binomial_paths_agree_witness :
    (qbinomNumer 4 2 (2 : ℤ)).fdiv (qbinomDenom 2 (2 : ℤ)) = qbinomCyclo 4 2 2 :=
  (q_binomial_paths_agree 4 2 2 (by decide)).1 (by decide)

/-- Claim C3: for every `n ≥ 0`, `0 ≤ k ≤ n` and every `q`,
`q_binomial(n, k, q) = q_binomial(n, n - k, q)`. -/
theorem q_binomial_symm (n k q : ℤ) (hn : 0 ≤ n) (hk0 : 0 ≤ k) (hkn : k ≤ n) :
    q_binomial n k q = q_binomial n (n - k) q := by
  rw [q_binomial_eq_cyclo n k hn hk0 hkn q,
    q_binomial_eq_cyclo n (n - k) hn (by omega) (by omega) q]
  have h : (min (n - (n - k)) (n - k)).toNat = (min (n - k) k).toNat := by omega
  rw [h]

theorem q_binomial_symm_witness : q_binomial 5 2 7 = q_binomial 5 (5 - 2) 7 :=
  q_binomial_symm 5 2 7 (by decide) (by decide) (by decide)

/-- Claim C4: for every `n ≥ 0` and `k < 0` or `k > n`, `q_binomial(n, k, q)`
returns the zero value immediately, for every `q`, raising no error. -/
theorem q_binomial_out_of_range (n k q : ℤ) (hn : 0 ≤ n)
    (hk : k < 0 ∨ n < k) : q_binomial n k q = Except.ok 0 := by
  simp only [q_binomial]
  rw [if_neg (not_lt.mpr hn), if_pos (by rintro ⟨h1, h2⟩; omega)]

theorem q_binomial_out_of_range_witness : q_binomial 4 5 3 = Except.ok 0 :=
  q_binomial_out_of_range 4 5 3 (by decide) (Or.inr (by decide))

/-- Claim C5: when `q` is classified as a polynomial of the canonical family
(the default `q` included), the naive algorithm is selected exactly when
`n ≤ 70` or `min(k, n-k) ≤ n/4` under exact non-integer division; otherwise
the cyclotomic-polynomial algorithm is selected. -/
theorem chooseAlgo_polynomial_iff (n k : ℤ) (sr : Bool) (hk0 : 0 ≤ k)
    (hkn : k ≤ n) :
    (chooseAlgo true sr n (min (n - k) k) = Algo.naive ↔
        (n ≤ 70 ∨ ((min k (n - k) : ℤ) : ℚ) ≤ (n : ℚ) / 4)) ∧
      (chooseAlgo true sr n (min (n - k) k) = Algo.cycloPolynomial ↔
        ¬ (n ≤ 70 ∨ ((min k (n - k) : ℤ) : ℚ) ≤ (n : ℚ) / 4)) := by
  have hunfold : ∀ m : ℤ, chooseAlgo true sr n m =
      if n ≤ 70 ∨ ((m : ℤ) : ℚ) ≤ (n : ℚ) / 4 then Algo.naive
      else Algo.cycloPolynomial := fun m => rfl
  rw [hunfold, min_comm (n - k) k]
  constructor
  · split_ifs with hcnd
    · exact ⟨fun _ => hcnd, fun _ => rfl⟩
    · exact ⟨fun hcontra => absurd hcontra (by decide), fun hc => absurd hc hcnd⟩
  · split_ifs with hcnd
    · exact ⟨fun hcontra => absurd hcontra (by decide), fun hnc => absurd hcnd hnc⟩
    · exact ⟨fun _ => hcnd, fun _ => rfl⟩

theorem chooseAlgo_polynomial_iff_witness :
    chooseAlgo true false 60 (min (60 - 10) 10) = Algo.naive :=
  ((chooseAlgo_polynomial_iff 60 10 false (by decide) (by decide)).1).mpr
    (Or.inl (by decide))

/-- Claim C6: `q_catalan_number(n, p)` equals the product of `q_int(j, p)`
for `j = n+2 .. 2n` divided by the product for `j = 2 .. n`; its value at
`p = 1` is the ordinary Catalan number, and for `n = 0` the empty products
give `1`. -/
theorem q_catalan_number_spec (n : ℕ) :
    (∀ p : ℚ, q_catalan_number n p =
        (∏ j ∈ Finset.Icc (n + 2) (2 * n), q_int j p) /
          ∏ j ∈ Finset.Icc 2 n, q_int j p) ∧
      q_catalan_number n 1 = (catalan n : ℚ) ∧
        ∀ p : ℚ, q_catalan_number 0 p = 1 := by
  refine ⟨fun p => ?_, q_catalan_number_one n, fun p => ?_⟩
  · rw [q_catalan_number, Nat.Icc_succ_left, Nat.Icc_succ_left]
  · rw [q_catalan_number]
    norm_num

/-- Claim C7: for every integer `n ≥ 1` and every `q ≠ 1`, `q_jordan` on the
single-part partition `[n]` equals `q_factorial(n, q)`. -/
theorem q_jordan_single_part (n : ℕ) (q : ℤ) (hn : 1 ≤ n) (hq : q ≠ 1) :
    q_jordan [n] q = Except.ok (q_factorial n q) := by
  rw [q_jordan, if_neg hq]
  congr 1
  have h := qJordanAux_single q hq (([n] : List ℕ).sum + 1) n (by simp)
  rw [if_neg (by omega)] at h
  exact h

theorem q_jordan_single_part_witness :
    q_jordan [3] 2 = Except.ok (q_factorial 3 (2 : ℤ)) :=
  q_jordan_single_part 3 2 (by decide) (by decide)

/-- Claim C8: for every partition `t` (the empty one included),
`q_jordan(t, 1)` fails eagerly with the invalid-argument error
`"q must not be equal to 1"`, before any recursion, producing no partial
result. -/
theorem q_jordan_at_one_error (t : List ℕ) :
    q_jordan t 1 = Except.error "q must not be equal to 1" := by
  rw [q_jordan, if_pos rfl]

/-- Claim C9: the recursion of `q_jordan` terminates: each recursive call is
on a partition of total size exactly one smaller, so the value of the
fuel-indexed recursion is independent of the depth bound once it exceeds the
partition's total size — the recursion defines a total function of the
partition. -/
theorem q_jordan_terminates (t : List ℕ) (q : ℤ) (f g : ℕ) (hf : t.sum < f)
    (hg : t.sum < g) :
    qJordanAux f t q = qJordanAux g t q ∧
      ∀ i : ℕ, 1 ≤ t.getD i 0 →
        (mkPartition (t.set i (t.getD i 0 - 1))).sum + 1 = t.sum :=
  ⟨qJordanAux_congr_fuel t.sum t q f g le_rfl hf hg,
    fun _ h => qJordan_call_sum_succ h⟩

theorem q_jordan_terminates_witness :
    qJordanAux 4 [2, 1] 2 = qJordanAux 10 [2, 1] 2 :=
  (q_jordan_terminates [2, 1] 2 4 10 (by decide) (by decide)).1

/-- Claim C10: for every `n ≥ 0` and every `q` (roots of unity and `q = 1`
included), `q_binomial(n, 0, q) = 1` and `q_binomial(n, n, q) = 1`: after
normalization `k` is `0`, numerator and denominator of the naive path are
empty products equal to `1`, so the root-of-unity fallback never fires. -/
theorem q_binomial_edge_one (n : ℤ) (hn : 0 ≤ n) :
    (∀ q : ℤ, q_binomial n 0 q = Except.ok 1 ∧ q_binomial n n q = Except.ok 1) ∧
      ∀ (R : Type) (_ : CommRing R) (q : R),
        qbinomDenom 0 q = 1 ∧ qbinomNumer n.toNat 0 q = 1 := by
  have hden : ∀ q : ℤ, qbinomDenom 0 q = 1 := fun q => by simp [qbinomDenom]
  have hnum : ∀ q : ℤ, qbinomNumer n.toNat 0 q = 1 := fun q => by
    simp [qbinomNumer]
  constructor
  · intro q
    constructor
    · simp only [q_binomial]
      rw [if_neg (not_lt.mpr hn), if_neg (not_not_intro ⟨le_rfl, hn⟩)]
      rw [show (min (n - 0) 0).toNat = 0 by omega]
      rw [if_neg (by rw [hden q]; exact one_ne_zero)]
      rw [hden q, hnum q]
      rfl
    · simp only [q_binomial]
      rw [if_neg (not_lt.mpr hn), if_neg (not_not_intro ⟨hn, le_rfl⟩)]
      rw [show (min (n - n) n).toNat = 0 by omega]
      rw [if_neg (by rw [hden q]; exact one_ne_zero)]
      rw [hden q, hnum q]
      rfl
  · intro R hR q
    exact ⟨by simp [qbinomDenom], by simp [qbinomNumer]⟩

theorem q_binomial_edge_one_witness :
    q_binomial 5 0 (-1) = Except.ok 1 ∧ q_binomial 5 5 (-1) = Except.ok 1 :=
  (q_binomial_edge_one 5 (by decide)).1 (-1)

end QAnalog
